import Mathlib

/-!
Verification of the XML-to-JSON converter (`seatmap_parser.py`).

The development shallowly embeds the converter's core:
  * `text_to_value`   — scalar coercion of raw text,
  * `get_node_content`— attribute/text extraction for one node,
  * `parse_xml`       — the recursive tree conversion,
and proves/refutes the specification claims about them.

Python values produced by the converter are modelled by `Value`; a raised
exception (the converter can raise `TypeError` on mixed content) is
modelled by `parse_xml` returning `none`.  Python floats are modelled
exactly over `ℚ` plus infinities/NaN markers (IEEE rounding is abstracted
away; which strings successfully parse is modelled faithfully for the
ASCII fragment).  `str.casefold`/`str.isdigit` are modelled on the ASCII
fragment.
-/

namespace SeatmapParser

/-- Model of a Python float: an exact finite value, or inf, neginf, nan. -/
inductive PyFloat where
  | finite : ℚ → PyFloat
  | inf : PyFloat
  | neginf : PyFloat
  | nan : PyFloat
deriving DecidableEq

/-- Model of the Python values the converter builds: None, bool, int,
float, str, dict (insertion-ordered association list) and list. -/
inductive Value where
  | null : Value
  | bool : Bool → Value
  | int : Int → Value
  | float : PyFloat → Value
  | str : String → Value
  | obj : List (String × Value) → Value
  | list : List Value → Value

/-- ASCII model of `str.casefold`. -/
def casefold (s : String) : String := ⟨s.data.map Char.toLower⟩

/-- ASCII model of `str.isdigit`: non-empty and all characters `0`-`9`. -/
def pyIsDigit (s : String) : Bool := !s.data.isEmpty && s.data.all Char.isDigit

/-- Value of `int(s)` on an all-digit string. -/
def pyIntOfDigits (s : String) : Nat := s.data.foldl (fun a c => 10 * a + (c.toNat - 48)) 0

/-- ASCII whitespace stripped by Python's `float()`. -/
def isPyWs (c : Char) : Bool :=
  c = ' ' || c = '\t' || c = '\n' || c = '\r' || c = '\x0b' || c = '\x0c'

/-- Digit-group scanner for the `float()` grammar: consumes further digits,
allowing a single `_` between two digits, accumulating value and digit
count.  Called only after at least one digit has been read. -/
def digitsUAux : Nat → Nat → List Char → Nat × Nat × List Char
  | val, cnt, [] => (val, cnt, [])
  | val, cnt, c :: cs =>
    if c.isDigit then digitsUAux (10 * val + (c.toNat - 48)) (cnt + 1) cs
    else if c = '_' then
      match cs with
      | d :: cs2 =>
        if d.isDigit then digitsUAux (10 * val + (d.toNat - 48)) (cnt + 1) cs2
        else (val, cnt, c :: d :: cs2)
      | [] => (val, cnt, [c])
    else (val, cnt, c :: cs)

/-- Reads a digit group (first character must be a digit); returns its
value, the number of digits read, and the rest. -/
def takeDigitsU : List Char → Nat × Nat × List Char
  | [] => (0, 0, [])
  | c :: cs => if c.isDigit then digitsUAux (c.toNat - 48) 1 cs else (0, 0, c :: cs)

/-- Reads an optional sign; `true` means negative. -/
def parseSign : List Char → Bool × List Char
  | '+' :: cs => (false, cs)
  | '-' :: cs => (true, cs)
  | cs => (false, cs)

/-- Optional exponent part of the `float()` grammar. -/
def parseExpPart (base : ℚ) : List Char → Option (ℚ × List Char)
  | 'e' :: rest =>
    let sn := parseSign rest
    let ed := takeDigitsU sn.2
    if ed.2.1 = 0 then none
    else some (base * (10 : ℚ) ^ (if sn.1 then -(ed.1 : Int) else (ed.1 : Int)), ed.2.2)
  | cs => some (base, cs)

/-- Unsigned number of the `float()` grammar:
`digits [. digits] [exp]` or `. digits [exp]`. -/
def parseNumber (cs : List Char) : Option (ℚ × List Char) :=
  let ip := takeDigitsU cs
  match ip.2.2 with
  | '.' :: rest1 =>
    let fp := takeDigitsU rest1
    if ip.2.1 = 0 && fp.2.1 = 0 then none
    else parseExpPart ((ip.1 : ℚ) + (fp.1 : ℚ) / ((10 : ℚ) ^ fp.2.1)) fp.2.2
  | _ =>
    if ip.2.1 = 0 then none
    else parseExpPart (ip.1 : ℚ) ip.2.2

/-- Model of Python's `float(s)` on the ASCII fragment: optional
whitespace and sign, then `inf`/`infinity`/`nan` or a decimal number with
optional exponent; `none` models a raised `ValueError`. -/
def pyFloatParse (s : String) : Option PyFloat :=
  let cs0 := (s.data.map Char.toLower).dropWhile isPyWs
  let sn := parseSign cs0
  let neg := sn.1
  let cs := sn.2
  if cs.take 8 = "infinity".data then
    if (cs.drop 8).all isPyWs then some (if neg then .neginf else .inf) else none
  else if cs.take 3 = "inf".data then
    if (cs.drop 3).all isPyWs then some (if neg then .neginf else .inf) else none
  else if cs.take 3 = "nan".data then
    if (cs.drop 3).all isPyWs then some .nan else none
  else
    match parseNumber cs with
    | some qr => if qr.2.all isPyWs then some (.finite (if neg then -qr.1 else qr.1)) else none
    | none => none

/-- Model of `re.search(ALPHANUMERIC, s)` succeeding, where the source's
`ALPHANUMERIC` is the regex character class `[A-Za-z1-9]+` (note: the
digit `0` is absent in the source). -/
def hasAlnum19 (s : String) : Bool :=
  s.data.any (fun c =>
    ('A' ≤ c && c ≤ 'Z') || ('a' ≤ c && c ≤ 'z') || ('1' ≤ c && c ≤ '9'))

/-- Embedding of `text_to_value`: casefold, then boolean literals, then
all-digit integers, then `float()`, then the alphanumeric-search fallback
returning the original string or `None`. -/
def text_to_value (text : String) : Value :=
  if casefold text = "true" then .bool true
  else if casefold text = "false" then .bool false
  else if pyIsDigit (casefold text) then .int (pyIntOfDigits (casefold text))
  else
    match pyFloatParse (casefold text) with
    | some f => .float f
    | none => if hasAlnum19 (casefold text) then .str text else .null


/-- The opening-brace character of ElementTree's namespace syntax. -/
def lbrace : Char := Char.ofNat 123

/-- The closing-brace character of ElementTree's namespace syntax. -/
def rbrace : Char := Char.ofNat 125

/-- Embedding of `xml_tag_to_json_tag`: drop every opening brace and turn
every closing brace into a colon (the source's two `str.replace` calls). -/
def xml_tag_to_json_tag (t : String) : String :=
  ⟨t.data.filterMap (fun c =>
    if c = lbrace then none else if c = rbrace then some ':' else some c)⟩

/-- Model of an `xml.etree.ElementTree.Element`: tag, attributes (in
document order), text before the first child, children, and tail text
(the text that follows this element inside its parent). -/
inductive Node : Type where
  | mk : String → List (String × String) → Option String → List Node → Option String → Node

def Node.tag : Node → String
  | .mk t _ _ _ _ => t

def Node.attrib : Node → List (String × String)
  | .mk _ a _ _ _ => a

def Node.text : Node → Option String
  | .mk _ _ x _ _ => x

def Node.children : Node → List Node
  | .mk _ _ _ cs _ => cs

def Node.tail : Node → Option String
  | .mk _ _ _ _ tl => tl

/-- The JSON key of a node: `xml_tag_to_json_tag` of its tag. -/
def tagOf (n : Node) : String := xml_tag_to_json_tag n.tag

/-- Python truthiness of a converted value (`if converted_text:` etc.). -/
def truthy : Value → Bool
  | .null => false
  | .bool b => b
  | .int n => !(n == 0)
  | .float (.finite q) => !(decide (q = 0))
  | .float _ => true
  | .str s => !s.data.isEmpty
  | .obj fs => !fs.isEmpty
  | .list vs => !vs.isEmpty

/-- Lookup in a Python dict modelled as an insertion-ordered association
list with distinct keys. -/
def dictGet : List (String × Value) → String → Option Value
  | [], _ => none
  | (k2, v) :: d, k => if k2 = k then some v else dictGet d k

/-- Python dict assignment: an existing key keeps its position and gets
the new value; a new key is appended at the end. -/
def dictSet : List (String × Value) → String → Value → List (String × Value)
  | [], k, v => [(k, v)]
  | (k2, v2) :: d, k, v => if k2 = k then (k2, v) :: d else (k2, v2) :: dictSet d k v

/-- The dict comprehension over `node.attrib`: keys prefixed with `@` and
qualified, values coerced with `text_to_value`. -/
def attrsDict (attrs : List (String × String)) : List (String × Value) :=
  attrs.foldl
    (fun d kv => dictSet d ("@" ++ xml_tag_to_json_tag kv.1) (text_to_value kv.2)) []

/-- Embedding of `get_node_content`: the attribute dict (if any), then the
coerced text, stored under `#text` when attributes exist, or replacing the
dict entirely when there are none.  A falsy coerced text (`None`, `False`,
`0`, `0.0`) is skipped by the source's `if converted_text:`. -/
def contentAttrs (a : List (String × String)) : List (String × Value) :=
  if a.isEmpty then [] else attrsDict a

/-- Embedding of the body of `get_node_content` on the node's attribute
list and text. -/
def nodeContent (a : List (String × String)) : Option String → Value
  | none => .obj (contentAttrs a)
  | some t =>
    if t.data.isEmpty then .obj (contentAttrs a)
    else if truthy (text_to_value t) then
      (if (contentAttrs a).isEmpty then text_to_value t
       else .obj (dictSet (contentAttrs a) "#text" (text_to_value t)))
    else .obj (contentAttrs a)

def get_node_content (n : Node) : Value := nodeContent n.attrib n.text

/-- The final empty-collapse of `parse_xml`: an empty dict, list or string
(the empty iterables the converter can hold) becomes `None`. -/
def finalize : Value → Value
  | .obj [] => .null
  | .list [] => .null
  | .str s => if s.data.isEmpty then .null else .str s
  | v => v

/-- The look-ahead first pass over the children: a tag already present in
`content` gets an empty-list slot, a new tag an empty-dict slot. -/
def lookAhead : List (String × Value) → List Node → List (String × Value)
  | fs, [] => fs
  | fs, c :: cs =>
    lookAhead (dictSet fs (tagOf c) (if (dictGet fs (tagOf c)).isSome then .list [] else .obj [])) cs

mutual

/-- Embedding of `parse_xml`.  `none` models a raised exception: when the
node has children but `content` is a bare scalar (truthy coerced text with
no attributes), the source's `child_tag in content` membership test or the
`content[child_tag] = ...` assignment raises `TypeError`. -/
def parse_xml : Node → Option Value
  | .mk _t a x cs _tl =>
    match cs with
    | [] => some (finalize (nodeContent a x))
    | _ :: _ =>
      match nodeContent a x with
      | .obj fs =>
        match fillChildren (lookAhead fs cs) cs with
        | some fs2 => some (finalize (.obj fs2))
        | none => none
      | _ => none

/-- The second pass over the children: recursively convert each child and
append to its list slot or assign to its single slot. -/
def fillChildren : List (String × Value) → List Node → Option (List (String × Value))
  | fs, [] => some fs
  | fs, c :: cs =>
    match parse_xml c with
    | none => none
    | some v =>
      match dictGet fs (tagOf c) with
      | some (.list ws) => fillChildren (dictSet fs (tagOf c) (.list (ws ++ [v]))) cs
      | _ => fillChildren (dictSet fs (tagOf c) v) cs

end

/-- Embedding of `root_to_dict`: wrap the converted root under its
qualified tag. -/
def root_to_dict (n : Node) : Option Value :=
  match parse_xml n with
  | some v => some (.obj [(tagOf n, v)])
  | none => none

/-- Number of direct children of tag-key `t` among `cs`. -/
def countTag (cs : List Node) (t : String) : Nat :=
  (cs.filter (fun c => tagOf c == t)).length

/-- A valid element tag-key: non-empty and starting with neither `@` nor
`#` (true of every qualified tag derived from a well-formed XML name). -/
def goodTag (t : String) : Bool :=
  match (xml_tag_to_json_tag t).data with
  | [] => false
  | c :: _ => !(c == '@') && !(c == '#')

/-- All direct children carry valid XML tag-keys. -/
def childTagsOK (n : Node) : Bool := n.children.all (fun c => goodTag c.tag)

mutual

/-- Erase every tail-text segment in the tree (the text between and after
child elements). -/
def eraseTails : Node → Node
  | .mk t a x cs _ => .mk t a x (eraseTailsL cs) none

def eraseTailsL : List Node → List Node
  | [] => []
  | c :: cs => eraseTails c :: eraseTailsL cs

end

mutual

/-- Every key of every object occurring anywhere inside a value. -/
def allKeysV : Value → List String
  | .obj fs => allKeysF fs
  | .list vs => allKeysL vs
  | _ => []

def allKeysF : List (String × Value) → List String
  | [] => []
  | (k, v) :: fs => k :: (allKeysV v ++ allKeysF fs)

def allKeysL : List Value → List String
  | [] => []
  | v :: vs => allKeysV v ++ allKeysL vs

end

mutual

/-- The keys the specification allows in the converted output of a node:
the literal `#text`, `@`-prefixed qualified attribute names from anywhere
in the tree, and qualified tags of (strict) descendant elements. -/
def allowedKeys : Node → List String
  | .mk _ a _ cs _ =>
    "#text" :: (a.map (fun kv => "@" ++ xml_tag_to_json_tag kv.1)
      ++ (cs.map tagOf ++ allowedKeysL cs))

def allowedKeysL : List Node → List String
  | [] => []
  | c :: cs => allowedKeys c ++ allowedKeysL cs

end

mutual

/-- No empty object, empty list or empty string occurs anywhere inside. -/
def noEmptyV : Value → Bool
  | .obj fs => !fs.isEmpty && noEmptyF fs
  | .list vs => !vs.isEmpty && noEmptyL vs
  | .str s => !s.data.isEmpty
  | _ => true

def noEmptyF : List (String × Value) → Bool
  | [] => true
  | (_, v) :: fs => noEmptyV v && noEmptyF fs

def noEmptyL : List Value → Bool
  | [] => true
  | v :: vs => noEmptyV v && noEmptyL vs

end

example : parse_xml (.mk "a" [] none [] none) = some .null := rfl
example : parse_xml (.mk "a" [] (some "data") [] none) = some (.str "data") := rfl
example :
    parse_xml (.mk "a" [] none
      [.mk "b" [] (some "1") [] none, .mk "b" [] (some "2") [] none,
       .mk "b" [] (some "3") [] none] none)
    = some (.obj [("b", .list [.int 1, .int 2, .int 3])]) := rfl
example : parse_xml (.mk "a" [("href", "xyz")] none [] none)
    = some (.obj [("@href", .str "xyz")]) := rfl
example : parse_xml (.mk "a" [("href", "xyz")] (some "123") [] none)
    = some (.obj [("@href", .str "xyz"), ("#text", .int 123)]) := rfl
example : parse_xml (.mk "emptya" [] (some "   ") [] none) = some .null := rfl
example : parse_xml (.mk "a" [] (some "hello") [.mk "b" [] none [] none] none) = none := rfl
example : root_to_dict (.mk "a" [] none [] none) = some (.obj [("a", .null)]) := rfl

example : ∃ q : ℚ, text_to_value "4.5" = .float (.finite q) := ⟨_, rfl⟩
example : text_to_value "true" = .bool true := rfl
example : text_to_value "TRUE" = .bool true := rfl
example : text_to_value "27" = .int 27 := rfl
example : text_to_value "0" = .int 0 := rfl
example : ∃ q : ℚ, text_to_value "1e10" = .float (.finite q) := ⟨_, rfl⟩
example : text_to_value "" = .null := rfl
example : text_to_value "  \n " = .null := rfl
example : text_to_value "0-" = .null := rfl
example : text_to_value "hello" = .str "hello" := rfl
example : text_to_value " 12 " = .float (.finite 12) := rfl
example : text_to_value "inf" = .float .inf := rfl

/-! ### Dictionary lemmas -/

theorem dictGet_set (d : List (String × Value)) (k k' : String) (v : Value) :
    dictGet (dictSet d k v) k' = if k = k' then some v else dictGet d k' := by
  induction d with
  | nil =>
    by_cases h : k = k' <;> simp [dictSet, dictGet, h]
  | cons p d ih =>
    obtain ⟨k2, v2⟩ := p
    simp only [dictSet]
    by_cases h2 : k2 = k
    · subst h2
      simp only [if_pos rfl, dictGet]
      by_cases h : k2 = k' <;> simp [h]
    · simp only [if_neg h2, dictGet, ih]
      by_cases h3 : k2 = k'
      · subst h3
        have hk : ¬ k = k2 := fun hh => h2 hh.symm
        simp [hk]
      · simp [h3]

theorem dictSet_ne_nil (d : List (String × Value)) (k : String) (v : Value) :
    dictSet d k v ≠ [] := by
  cases d with
  | nil => simp [dictSet]
  | cons p d => obtain ⟨k2, v2⟩ := p; by_cases h : k2 = k <;> simp [dictSet, h]

theorem dictGet_nil_of_eq_nil {d : List (String × Value)} (h : d = []) (k : String) :
    dictGet d k = none := by subst h; rfl

/-! ### Tag-key lemmas -/

theorem string_eq_iff_data {s t : String} : s = t ↔ s.data = t.data :=
  ⟨fun h => h ▸ rfl, fun h => by cases s; cases t; exact congrArg String.mk h⟩

theorem goodTag_ne_attr (t x : String) (h : goodTag t = true) :
    "@" ++ x ≠ xml_tag_to_json_tag t := by
  intro he
  rw [string_eq_iff_data, String.data_append] at he
  unfold goodTag at h
  cases hd : (xml_tag_to_json_tag t).data with
  | nil => rw [hd] at he; simp at he
  | cons c rest =>
    rw [hd] at h he
    simp at h
    have : '@' = c := by simpa using congrArg List.head? he
    exact h.1 this.symm

theorem goodTag_ne_text (t : String) (h : goodTag t = true) :
    "#text" ≠ xml_tag_to_json_tag t := by
  intro he
  rw [string_eq_iff_data] at he
  unfold goodTag at h
  cases hd : (xml_tag_to_json_tag t).data with
  | nil => rw [hd] at he; simp at he
  | cons c rest =>
    rw [hd] at h he
    simp at h
    have : '#' = c := by simpa using congrArg List.head? he
    exact h.2 this.symm

/-- Keys produced by the attribute comprehension are `@`-prefixed, so a
good tag-key is absent from it. -/
theorem attrsDict_get_good (attrs : List (String × String)) (t : String)
    (h : goodTag t = true) : dictGet (attrsDict attrs) (xml_tag_to_json_tag t) = none := by
  suffices H : ∀ d, dictGet d (xml_tag_to_json_tag t) = none →
      dictGet (attrs.foldl
        (fun d kv => dictSet d ("@" ++ xml_tag_to_json_tag kv.1) (text_to_value kv.2)) d)
        (xml_tag_to_json_tag t) = none by
    exact H [] rfl
  induction attrs with
  | nil => intro d hd; simpa using hd
  | cons a attrs ih =>
    intro d hd
    simp only [List.foldl_cons]
    exact ih _ (by rw [dictGet_set]; simp [hd, goodTag_ne_attr t (xml_tag_to_json_tag a.1) h])

/-- `text_to_value` only produces scalars. -/
theorem text_to_value_scalar (t : String) :
    (∀ fs, text_to_value t ≠ .obj fs) ∧ (∀ vs, text_to_value t ≠ .list vs) ∧
    (∀ s, text_to_value t = .str s → s = t ∧ hasAlnum19 (casefold t) = true) := by
  unfold text_to_value
  split
  · simp
  · split
    · simp
    · split
      · simp
      · split
        · simp
        · split <;> simp_all

theorem text_to_value_not_obj (t : String) (fs : List (String × Value)) :
    text_to_value t ≠ .obj fs := (text_to_value_scalar t).1 fs

theorem text_to_value_not_list (t : String) (vs : List Value) :
    text_to_value t ≠ .list vs := (text_to_value_scalar t).2.1 vs

theorem contentAttrs_get_good (a : List (String × String)) (t : String)
    (h : goodTag t = true) : dictGet (contentAttrs a) (xml_tag_to_json_tag t) = none := by
  unfold contentAttrs
  split
  · rfl
  · exact attrsDict_get_good _ _ h

/-- Whenever `nodeContent` (the body of `get_node_content`) produces a
dict, a good tag-key is absent from it. -/
theorem nodeContent_get_good (a : List (String × String)) (x : Option String)
    (fs0 : List (String × Value)) (t : String)
    (hobj : nodeContent a x = .obj fs0) (h : goodTag t = true) :
    dictGet fs0 (xml_tag_to_json_tag t) = none := by
  cases x with
  | none =>
    injection hobj with h2
    subst h2
    exact contentAttrs_get_good a t h
  | some s =>
    simp only [nodeContent] at hobj
    split at hobj
    · injection hobj with h2; subst h2; exact contentAttrs_get_good a t h
    · split at hobj
      · split at hobj
        · exact absurd hobj (text_to_value_not_obj _ _)
        · injection hobj with h2
          subst h2
          rw [dictGet_set]
          rw [if_neg (goodTag_ne_text t h)]
          exact contentAttrs_get_good a t h
      · injection hobj with h2; subst h2; exact contentAttrs_get_good a t h

/-! ### Counting children by tag-key, and the look-ahead pass -/

theorem countTag_nil (t : String) : countTag [] t = 0 := rfl

theorem countTag_cons (c : Node) (cs : List Node) (t : String) :
    countTag (c :: cs) t = (if tagOf c = t then 1 else 0) + countTag cs t := by
  simp only [countTag, List.filter_cons]
  by_cases h : tagOf c = t
  · rw [if_pos (by simpa using h), if_pos h, List.length_cons]
    omega
  · rw [if_neg (by simpa using h), if_neg h]
    omega

/-- Full characterization of the look-ahead pass: a tag-key occurring at
least twice (or colliding with an existing key) gets an empty-list slot, a
tag-key occurring exactly once gets an empty-dict slot, and other keys are
untouched. -/
theorem lookAhead_get (cs : List Node) : ∀ (fs : List (String × Value)) (t : String),
    dictGet (lookAhead fs cs) t =
      if countTag cs t = 0 then dictGet fs t
      else if (dictGet fs t).isSome ∨ 2 ≤ countTag cs t then some (.list [])
      else some (.obj []) := by
  induction cs with
  | nil => intro fs t; simp [lookAhead, countTag_nil]
  | cons c cs ih =>
    intro fs t
    rw [lookAhead, ih, countTag_cons]
    by_cases hct : tagOf c = t
    · subst hct
      rw [dictGet_set]
      simp only [if_pos rfl]
      by_cases h0 : countTag cs (tagOf c) = 0
      · simp only [h0, if_pos rfl]
        by_cases hs : (dictGet fs (tagOf c)).isSome
        · simp [hs]
        · simp [hs]
      · have : ¬ (1 + countTag cs (tagOf c) = 0) := by omega
        have h2 : 2 ≤ 1 + countTag cs (tagOf c) := by omega
        simp [h0, this, h2]
    · rw [dictGet_set]
      simp [hct, (fun h => hct h.symm : ¬ t = tagOf c)]

theorem countTag_zero_not_mem {cs : List Node} {t : String} (h : countTag cs t = 0) :
    ∀ c ∈ cs, tagOf c ≠ t := by
  intro c hc he
  have hm : c ∈ cs.filter (fun c => tagOf c == t) :=
    List.mem_filter.2 ⟨hc, by simpa using he⟩
  rw [countTag, List.length_eq_zero] at h
  rw [h] at hm
  exact absurd hm (List.not_mem_nil c)

theorem countTag_pos_of_mem {cs : List Node} {t : String} {c : Node}
    (hc : c ∈ cs) (ht : tagOf c = t) : 1 ≤ countTag cs t := by
  have hm : c ∈ cs.filter (fun c => tagOf c == t) :=
    List.mem_filter.2 ⟨hc, by simpa using ht⟩
  have := List.ne_nil_of_mem hm
  have := List.length_pos.2 this
  rw [countTag]
  omega
/-- Full characterization of the second pass over the children, under the
assumption (established by the look-ahead) that every tag-key occurring at
least twice holds a list slot: every child converts successfully; keys of
absent tags are untouched; a list slot receives the converted values of
its children in document order; a non-list slot of a once-occurring
tag-key receives that child's converted value. -/
theorem fillChildren_spec (cs : List Node) :
    ∀ (fs fs' : List (String × Value)),
    (∀ t, 2 ≤ countTag cs t → ∃ ws, dictGet fs t = some (.list ws)) →
    fillChildren fs cs = some fs' →
    (∀ c ∈ cs, ∃ w, parse_xml c = some w) ∧
    ∀ t,
      (countTag cs t = 0 → dictGet fs' t = dictGet fs t) ∧
      (∀ ws, dictGet fs t = some (.list ws) →
        ∃ vs, dictGet fs' t = some (.list (ws ++ vs)) ∧
          (cs.filter (fun c => tagOf c == t)).map parse_xml = vs.map some) ∧
      (1 ≤ countTag cs t → (∀ ws, dictGet fs t ≠ some (.list ws)) →
        ∀ c ∈ cs, tagOf c = t → dictGet fs' t = parse_xml c) := by
  induction cs with
  | nil =>
    intro fs fs' _ hfc
    simp only [fillChildren, Option.some.injEq] at hfc
    subst hfc
    refine ⟨by simp, fun t => ⟨fun _ => rfl, fun ws hws => ⟨[], by simpa using hws, by simp⟩,
      fun h1 => by rw [countTag_nil] at h1; omega⟩⟩
  | cons c cs ih =>
    intro fs fs' hls hfc
    cases hpc : parse_xml c with
    | none =>
      simp only [fillChildren, hpc] at hfc
      exact Option.noConfusion hfc
    | some v =>
      simp only [fillChildren, hpc] at hfc
      by_cases hL : ∃ ws, dictGet fs (tagOf c) = some (.list ws)
      · -- the slot of the head child is already a list: append
        obtain ⟨ws, hws⟩ := hL
        rw [hws] at hfc
        have hls2 : ∀ t, 2 ≤ countTag cs t →
            ∃ ws2, dictGet (dictSet fs (tagOf c) (.list (ws ++ [v]))) t = some (.list ws2) := by
          intro t h2
          rw [dictGet_set]
          by_cases hct : tagOf c = t
          · exact ⟨ws ++ [v], by rw [if_pos hct]⟩
          · rw [if_neg hct]
            refine hls t ?_
            rw [countTag_cons]
            omega
        obtain ⟨hall, hcl⟩ := ih _ _ hls2 hfc
        refine ⟨?_, ?_⟩
        · intro c2 hc2
          rcases List.mem_cons.1 hc2 with h | h
          · exact ⟨v, h ▸ hpc⟩
          · exact hall c2 h
        · intro t
          refine ⟨?_, ?_, ?_⟩
          · intro h0
            rw [countTag_cons] at h0
            have hct : tagOf c ≠ t := by
              intro he; rw [if_pos he] at h0; omega
            have h0cs : countTag cs t = 0 := by
              rw [if_neg hct] at h0; omega
            rw [(hcl t).1 h0cs, dictGet_set, if_neg hct]
          · intro ws0 hws0
            by_cases hct : tagOf c = t
            · subst hct
              have hwe : ws0 = ws := by
                rw [hws] at hws0
                injection hws0 with h
                injection h with h2
                exact h2.symm
              subst hwe
              obtain ⟨vs2, hvs1, hvs2⟩ := (hcl (tagOf c)).2.1 (ws0 ++ [v])
                (by rw [dictGet_set, if_pos rfl])
              refine ⟨v :: vs2, ?_, ?_⟩
              · rw [hvs1]
                simp [List.append_assoc]
              · rw [List.filter_cons_of_pos (by simp)]
                simp only [List.map_cons, hpc, hvs2]
            · obtain ⟨vs2, hvs1, hvs2⟩ := (hcl t).2.1 ws0
                (by rw [dictGet_set, if_neg hct]; exact hws0)
              refine ⟨vs2, hvs1, ?_⟩
              rw [List.filter_cons_of_neg (by simpa using hct)]
              exact hvs2
          · intro h1 hnl c2 hc2 htc2
            by_cases hct : tagOf c = t
            · exact absurd (hct ▸ hws) (hnl ws)
            · rcases List.mem_cons.1 hc2 with h | h
              · exact absurd (h ▸ htc2) hct
              · refine (hcl t).2.2 (countTag_pos_of_mem h htc2) ?_ c2 h htc2
                intro ws2
                rw [dictGet_set, if_neg hct]
                exact hnl ws2
      · -- the slot of the head child is not a list: plain assignment
        have hnl0 : ∀ ws, dictGet fs (tagOf c) ≠ some (.list ws) := fun ws h => hL ⟨ws, h⟩
        have hfc2 : fillChildren (dictSet fs (tagOf c) v) cs = some fs' := by
          cases hslot : dictGet fs (tagOf c) with
          | none => simpa only [hslot] using hfc
          | some w =>
            cases w <;> simp only [hslot] at hfc <;> first
              | exact hfc
              | exact absurd hslot (hnl0 _)
        have hls2 : ∀ t, 2 ≤ countTag cs t →
            ∃ ws2, dictGet (dictSet fs (tagOf c) v) t = some (.list ws2) := by
          intro t h2
          by_cases hct : tagOf c = t
          · obtain ⟨ws, hws⟩ := hls t (by rw [countTag_cons]; omega)
            exact absurd (hct ▸ hws) (hnl0 ws)
          · rw [dictGet_set, if_neg hct]
            exact hls t (by rw [countTag_cons]; omega)
        obtain ⟨hall, hcl⟩ := ih _ _ hls2 hfc2
        refine ⟨?_, ?_⟩
        · intro c2 hc2
          rcases List.mem_cons.1 hc2 with h | h
          · exact ⟨v, h ▸ hpc⟩
          · exact hall c2 h
        · intro t
          refine ⟨?_, ?_, ?_⟩
          · intro h0
            rw [countTag_cons] at h0
            have hct : tagOf c ≠ t := by
              intro he; rw [if_pos he] at h0; omega
            have h0cs : countTag cs t = 0 := by
              rw [if_neg hct] at h0; omega
            rw [(hcl t).1 h0cs, dictGet_set, if_neg hct]
          · intro ws0 hws0
            by_cases hct : tagOf c = t
            · exact absurd (hct ▸ hws0) (hnl0 ws0)
            · obtain ⟨vs2, hvs1, hvs2⟩ := (hcl t).2.1 ws0
                (by rw [dictGet_set, if_neg hct]; exact hws0)
              refine ⟨vs2, hvs1, ?_⟩
              rw [List.filter_cons_of_neg (by simpa using hct)]
              exact hvs2
          · intro h1 hnl c2 hc2 htc2
            by_cases hct : tagOf c = t
            · have h0cs : countTag cs t = 0 := by
                by_contra hne
                obtain ⟨ws, hws⟩ := hls t (by rw [countTag_cons, if_pos hct]; omega)
                exact absurd (hct ▸ hws) (hnl0 ws)
              have hget : dictGet fs' t = some v := by
                rw [(hcl t).1 h0cs, dictGet_set, if_pos hct]
              rcases List.mem_cons.1 hc2 with h | h
              · rw [hget, h, hpc]
              · exact absurd htc2 (countTag_zero_not_mem h0cs c2 h)
            · rcases List.mem_cons.1 hc2 with h | h
              · exact absurd (h ▸ htc2) hct
              · refine (hcl t).2.2 (countTag_pos_of_mem h htc2) ?_ c2 h htc2
                intro ws2
                rw [dictGet_set, if_neg hct]
                exact hnl ws2

/-! ### Per-node characterization of the conversion of children -/

theorem parse_xml_nil (t : String) (a : List (String × String)) (x : Option String)
    (tl : Option String) :
    parse_xml (.mk t a x [] tl) = some (finalize (nodeContent a x)) := rfl

theorem parse_xml_cons (t : String) (a : List (String × String)) (x : Option String)
    (c : Node) (cs : List Node) (tl : Option String) :
    parse_xml (.mk t a x (c :: cs) tl) =
      match nodeContent a x with
      | .obj fs =>
        match fillChildren (lookAhead fs (c :: cs)) (c :: cs) with
        | some fs2 => some (finalize (.obj fs2))
        | none => none
      | _ => none := rfl

/-- A node whose content is a bare scalar (truthy coerced text, no
attributes) and that has children makes `parse_xml` raise: the conversion
returns no value. -/
theorem parse_xml_scalar_with_children (t : String) (a : List (String × String))
    (x : Option String) (c : Node) (cs : List Node) (tl : Option String)
    (hno : ∀ fs, nodeContent a x ≠ .obj fs) :
    parse_xml (.mk t a x (c :: cs) tl) = none := by
  rw [parse_xml_cons]
  cases hnc : nodeContent a x with
  | obj fs => exact absurd hnc (hno fs)
  | null => rfl
  | bool b => rfl
  | int i => rfl
  | float f => rfl
  | str s => rfl
  | list vs => rfl

theorem childTagsOK_good {n : Node} {c : Node} (hwf : childTagsOK n = true)
    (hc : c ∈ n.children) : goodTag c.tag = true := by
  rw [childTagsOK, List.all_eq_true] at hwf
  exact hwf c hc

theorem finalize_obj_of_ne_nil {fs : List (String × Value)} (h : fs ≠ []) :
    finalize (.obj fs) = .obj fs := by
  cases fs with
  | nil => exact absurd rfl h
  | cons p fs => rfl

theorem ne_nil_of_dictGet_some {fs : List (String × Value)} {k : String} {w : Value}
    (h : dictGet fs k = some w) : fs ≠ [] := by
  intro he
  subst he
  exact Option.noConfusion h

/-- Shared characterization of a successfully converted node that has
children: the result is a non-empty object, every child converted
successfully, and each tag-key maps to its single converted child (when it
occurs once) or to the list of converted same-tag children in document
order (when it occurs at least twice). -/
theorem parse_children_spec (n : Node) (v : Value)
    (hwf : childTagsOK n = true) (hcs : n.children ≠ [])
    (h : parse_xml n = some v) :
    ∃ fs, v = .obj fs ∧ fs ≠ [] ∧
      (∀ c ∈ n.children, ∃ w, parse_xml c = some w) ∧
      (∀ fs0, get_node_content n = .obj fs0 → ∀ t2, countTag n.children t2 = 0 →
        dictGet fs t2 = dictGet fs0 t2) ∧
      ∀ c ∈ n.children,
        (countTag n.children (tagOf c) = 1 → dictGet fs (tagOf c) = parse_xml c) ∧
        (2 ≤ countTag n.children (tagOf c) →
          ∃ ws, dictGet fs (tagOf c) = some (.list ws) ∧
            (n.children.filter (fun c2 => tagOf c2 == tagOf c)).map parse_xml = ws.map some) := by
  obtain ⟨t, a, x, cs, tl⟩ := n
  simp only [Node.children] at hcs ⊢
  cases cs with
  | nil => exact absurd rfl hcs
  | cons c0 cs0 =>
    rw [parse_xml_cons] at h
    cases hnc : nodeContent a x with
    | obj fs0 =>
      simp only [hnc] at h
      cases hfc : fillChildren (lookAhead fs0 (c0 :: cs0)) (c0 :: cs0) with
      | none =>
        simp only [hfc] at h
        exact Option.noConfusion h
      | some fs2 =>
        simp only [hfc] at h
        injection h with h
        have hls : ∀ t2, 2 ≤ countTag (c0 :: cs0) t2 →
            ∃ ws, dictGet (lookAhead fs0 (c0 :: cs0)) t2 = some (.list ws) := by
          intro t2 h2
          rw [lookAhead_get]
          rw [if_neg (by omega), if_pos (Or.inr h2)]
          exact ⟨[], rfl⟩
        obtain ⟨hall, hcl⟩ := fillChildren_spec _ _ _ hls hfc
        have hslot : ∀ c ∈ (c0 :: cs0), dictGet (lookAhead fs0 (c0 :: cs0)) (tagOf c) =
            if 2 ≤ countTag (c0 :: cs0) (tagOf c) then some (.list []) else some (.obj []) := by
          intro c hc
          have hgood : goodTag c.tag = true := by
            rw [childTagsOK, List.all_eq_true] at hwf
            exact hwf c (by simpa [Node.children] using hc)
          have hga : dictGet fs0 (tagOf c) = none :=
            nodeContent_get_good a x fs0 c.tag hnc hgood
          have hpos : 1 ≤ countTag (c0 :: cs0) (tagOf c) := countTag_pos_of_mem hc rfl
          rw [lookAhead_get, if_neg (by omega), hga]
          by_cases h2 : 2 ≤ countTag (c0 :: cs0) (tagOf c)
          · rw [if_pos h2, if_pos (Or.inr h2)]
          · rw [if_neg h2, if_neg (by simp [h2])]
        have hne : fs2 ≠ [] := by
          have hm : c0 ∈ (c0 :: cs0) := List.mem_cons_self c0 cs0
          by_cases h2 : 2 ≤ countTag (c0 :: cs0) (tagOf c0)
          · obtain ⟨vs, hv1, _⟩ := (hcl (tagOf c0)).2.1 [] (by rw [hslot c0 hm, if_pos h2])
            exact ne_nil_of_dictGet_some hv1
          · have h1 : countTag (c0 :: cs0) (tagOf c0) = 1 := by
              have := countTag_pos_of_mem hm (rfl : tagOf c0 = tagOf c0)
              omega
            obtain ⟨w, hw⟩ := hall c0 hm
            have := (hcl (tagOf c0)).2.2 (by omega)
              (by intro ws; rw [hslot c0 hm, if_neg h2]; simp) c0 hm rfl
            rw [hw] at this
            exact ne_nil_of_dictGet_some this
        refine ⟨fs2, by rw [← h, finalize_obj_of_ne_nil hne], hne, hall, ?_, ?_⟩
        · intro fs0b hobj t2 h0
          have hfe : fs0b = fs0 := by
            have : nodeContent a x = .obj fs0b := hobj
            rw [hnc] at this
            injection this with h3
            exact h3.symm
          subst hfe
          rw [(hcl t2).1 h0, lookAhead_get, if_pos h0]
        intro c hc
        constructor
        · intro h1
          exact (hcl (tagOf c)).2.2 (by omega)
            (by intro ws; rw [hslot c hc]; rw [if_neg (by omega)]; simp) c hc rfl
        · intro h2
          obtain ⟨vs, hv1, hv2⟩ := (hcl (tagOf c)).2.1 [] (by rw [hslot c hc, if_pos h2])
          exact ⟨vs, by simpa using hv1, hv2⟩
    | null => simp only [hnc] at h; exact Option.noConfusion h
    | bool b => simp only [hnc] at h; exact Option.noConfusion h
    | int i => simp only [hnc] at h; exact Option.noConfusion h
    | float f => simp only [hnc] at h; exact Option.noConfusion h
    | str s2 => simp only [hnc] at h; exact Option.noConfusion h
    | list vs => simp only [hnc] at h; exact Option.noConfusion h

/-! ### Further helper lemmas -/

theorem countTag_eq_zero {cs : List Node} {t : String} (h : ∀ c ∈ cs, tagOf c ≠ t) :
    countTag cs t = 0 := by
  rw [countTag, List.length_eq_zero, List.filter_eq_nil_iff]
  intro c hc
  simpa using h c hc

theorem countTag_pos_exists {cs : List Node} {t : String} (h : 1 ≤ countTag cs t) :
    ∃ c ∈ cs, tagOf c = t := by
  rw [countTag] at h
  have hne : cs.filter (fun c => tagOf c == t) ≠ [] := by
    intro he; rw [he] at h; simp at h
  obtain ⟨c, hc⟩ := List.exists_mem_of_ne_nil _ hne
  have := List.mem_filter.1 hc
  exact ⟨c, this.1, by simpa using this.2⟩

theorem text_to_value_nil {t : String} (h : t.data = []) : text_to_value t = .null := by
  obtain ⟨d⟩ := t
  simp only at h
  subst h
  rfl

theorem finalize_truthy {w : Value} (h : truthy w = true) : finalize w = w := by
  cases w with
  | null => simp [truthy] at h
  | bool b => rfl
  | int i => rfl
  | float f => rfl
  | str s =>
    simp only [truthy, Bool.not_eq_true'] at h
    simp [finalize, h]
  | obj fs =>
    cases fs with
    | nil => simp [truthy] at h
    | cons p fs => rfl
  | list vs =>
    cases vs with
    | nil => simp [truthy] at h
    | cons w vs => rfl

theorem foldl_dictSet_ne_nil (l : List (String × String)) :
    ∀ d : List (String × Value), d ≠ [] →
    l.foldl (fun d kv => dictSet d ("@" ++ xml_tag_to_json_tag kv.1) (text_to_value kv.2)) d
      ≠ [] := by
  induction l with
  | nil => intro d hd; simpa using hd
  | cons kv l ih =>
    intro d hd
    simp only [List.foldl_cons]
    exact ih _ (dictSet_ne_nil _ _ _)

theorem attrsDict_ne_nil {a : List (String × String)} (h : a ≠ []) : attrsDict a ≠ [] := by
  cases a with
  | nil => exact absurd rfl h
  | cons kv l =>
    rw [attrsDict]
    simp only [List.foldl_cons]
    exact foldl_dictSet_ne_nil l _ (dictSet_ne_nil _ _ _)

/-! ### Claim C1 -/

/-- C1: the claim says a node with element children, coerced non-null
inline text and no attributes converts to an object holding the text under
`#text` next to the children.  The code instead raises `TypeError` (the
scalar `content` cannot be indexed): here `<a>hello<b>1</b></a>` coerces
its text to the non-null string `"hello"` yet the conversion produces no
value at all. -/
theorem mixed_content_raises :
    text_to_value "hello" = .str "hello" ∧
    parse_xml (.mk "a" [] (some "hello") [.mk "b" [] (some "1") [] none] none) = none :=
  ⟨rfl, rfl⟩

/-! ### Claim C2 -/

/-- C2: the claim says conversion is total on well-formed trees.  It is
not: on `<a>5<b/></a>` (truthy coerced text combined with element
children, no attributes) the code raises `TypeError`, modelled here by
`parse_xml` returning `none`. -/
theorem conversion_not_total :
    text_to_value "5" = .int 5 ∧
    parse_xml (.mk "a" [] (some "5") [.mk "b" [] none [] none] none) = none :=
  ⟨rfl, rfl⟩

/-! ### Claim C4 -/

/-- C4: the claim (and the repository's own test `test_semi_structured`,
which expects `{"b": None, "#text": "abcdef"}`) says all text segments of
a node concatenate in document order before coercion.  The code reads only
the leading segment: on the test's input `<a>abc<b/>def</a>` it raises
(no value), and in `<a><b>1</b>5</a>` the tail segment `"5"` is silently
ignored — the result equals the conversion of the tree with the tail
deleted and carries no text contribution. -/
theorem tail_text_dropped :
    parse_xml (.mk "a" [] (some "abc") [.mk "b" [] none [] (some "def")] none) = none ∧
    parse_xml (.mk "a" [] none [.mk "b" [] (some "1") [] (some "5")] none)
      = some (.obj [("b", .int 1)]) ∧
    parse_xml (.mk "a" [] none [.mk "b" [] (some "1") [] (some "5")] none)
      = parse_xml (.mk "a" [] none [.mk "b" [] (some "1") [] none] none) :=
  ⟨rfl, rfl, rfl⟩

/-! ### Claim C5 -/

/-- C5: the claim (and the spec) read the fallback class as `[A-Za-z0-9]`,
under which `"0-"` (not boolean, not all digits, not a float) contains the
alphanumeric `0` and must be returned unchanged.  The source's regex
`[A-Za-z1-9]` omits `0`, so the code returns `None` instead. -/
theorem zero_dash_coerces_to_null :
    casefold "0-" ≠ "true" ∧ casefold "0-" ≠ "false" ∧
    pyIsDigit (casefold "0-") = false ∧ pyFloatParse (casefold "0-") = none ∧
    text_to_value "0-" = .null :=
  ⟨by decide, by decide, rfl, rfl, rfl⟩

/-! ### Claim C3 counterexample -/

/-- C3 counterexample: the text `"0"` coerces to the non-null integer `0`,
but a node `<a>0</a>` converts to `None`, not to the bare scalar `0`: the
source tests the coerced value for truthiness, not for non-nullness, and
`0` is falsy. -/
theorem falsy_text_dropped :
    text_to_value "0" = .int 0 ∧
    parse_xml (.mk "a" [] (some "0") [] none) = some .null :=
  ⟨rfl, rfl⟩

/-! ### Claim C6 counterexample -/

/-- C6 counterexample: in `<a>x<b/><b/></a>` the tag `b` occurs twice
among the direct children, yet no list (and no value at all) is produced:
the bare scalar text `"x"` together with children makes the conversion
raise. -/
theorem duplicate_children_no_list :
    countTag [Node.mk "b" [] none [] none, Node.mk "b" [] none [] none] "b" = 2 ∧
    parse_xml (.mk "a" [] (some "x")
      [.mk "b" [] none [] none, .mk "b" [] none [] none] none) = none :=
  ⟨rfl, rfl⟩

/-! ### Claim C7 -/

/-- C7: coercion order of `text_to_value`: a string whose casefold equals
`true`/`false` becomes the boolean; otherwise an all-digit string becomes
its integer value; otherwise a string accepted by `float()` becomes that
float. -/
theorem text_to_value_coercion_order (s : String) :
    (casefold s = "true" → text_to_value s = .bool true) ∧
    (casefold s = "false" → text_to_value s = .bool false) ∧
    (casefold s ≠ "true" → casefold s ≠ "false" → pyIsDigit (casefold s) = true →
      text_to_value s = .int (pyIntOfDigits (casefold s))) ∧
    (∀ f, casefold s ≠ "true" → casefold s ≠ "false" → pyIsDigit (casefold s) = false →
      pyFloatParse (casefold s) = some f → text_to_value s = .float f) := by
  refine ⟨fun h => ?_, fun h => ?_, fun h1 h2 h3 => ?_, fun f h1 h2 h3 h4 => ?_⟩
  · simp [text_to_value, h]
  · simp [text_to_value, h]
  · simp [text_to_value, h1, h2, h3]
  · simp [text_to_value, h1, h2, h3, h4]

/-- Witness for C7 at concrete inputs, including mixed-case booleans and a
scientific-notation float. -/
theorem text_to_value_coercion_order_witness :
    text_to_value "TRUE" = .bool true ∧ text_to_value "False" = .bool false ∧
    text_to_value "27" = .int 27 ∧
    (∃ f, pyFloatParse (casefold "1e10") = some f ∧ text_to_value "1e10" = .float f) := by
  refine ⟨(text_to_value_coercion_order "TRUE").1 (by decide),
    (text_to_value_coercion_order "False").2.1 (by decide), ?_, ?_⟩
  · rw [(text_to_value_coercion_order "27").2.2.1 (by decide) (by decide) (by decide)]
    rfl
  · exact ⟨_, rfl, (text_to_value_coercion_order "1e10").2.2.2 _ (by decide) (by decide)
      (by decide) rfl⟩

/-! ### Claim C3 (amended) -/

/-- C3 (amended): for a node whose inline text coerces to a truthy value
(non-null and not `False`, `0`, `0.0`), whenever conversion succeeds the
coerced value appears under `#text` when the node has attributes, and as
the bare scalar when it has neither attributes nor children.  (Falsy
non-null coerced values are dropped, see the counterexample.) -/
theorem truthy_text_in_result (n : Node) (t : String) (v : Value)
    (hwf : childTagsOK n = true) (ht : n.text = some t)
    (htr : truthy (text_to_value t) = true) (h : parse_xml n = some v) :
    (n.attrib ≠ [] → ∃ fs, v = .obj fs ∧ dictGet fs "#text" = some (text_to_value t)) ∧
    (n.attrib = [] → n.children = [] → v = text_to_value t) := by
  obtain ⟨tg, a, x, cs, tl⟩ := n
  simp only [Node.text] at ht
  subst ht
  simp only [Node.attrib, Node.children]
  have htne : ¬ t.data.isEmpty = true := by
    intro he
    rw [text_to_value_nil (List.isEmpty_iff.1 he)] at htr
    simp [truthy] at htr
  constructor
  · intro ha
    have hae : ¬ a.isEmpty = true := by simpa [List.isEmpty_iff] using ha
    have hca : contentAttrs a = attrsDict a := by rw [contentAttrs, if_neg hae]
    have hadne : attrsDict a ≠ [] := attrsDict_ne_nil ha
    have hnc : nodeContent a (some t)
        = .obj (dictSet (attrsDict a) "#text" (text_to_value t)) := by
      simp only [nodeContent]
      rw [if_neg htne, if_pos htr, hca, if_neg (by simpa [List.isEmpty_iff] using hadne)]
    cases cs with
    | nil =>
      rw [parse_xml_nil, hnc, finalize_obj_of_ne_nil (dictSet_ne_nil _ _ _)] at h
      injection h with h
      exact ⟨_, h.symm, by rw [dictGet_set, if_pos rfl]⟩
    | cons c0 cs0 =>
      obtain ⟨fs, hv, hne, hall, hun, hcl⟩ := parse_children_spec
        (.mk tg a (some t) (c0 :: cs0) tl) v hwf (by simp [Node.children]) h
      have hcount : countTag (Node.mk tg a (some t) (c0 :: cs0) tl).children "#text" = 0 := by
        apply countTag_eq_zero
        intro c hc he
        exact goodTag_ne_text c.tag (childTagsOK_good hwf hc) he.symm
      have hget := hun (dictSet (attrsDict a) "#text" (text_to_value t)) hnc "#text" hcount
      refine ⟨fs, by simpa [Node.children] using hv, ?_⟩
      rw [hget, dictGet_set, if_pos rfl]
  · intro ha hcs
    subst ha
    subst hcs
    rw [parse_xml_nil] at h
    have hnc : nodeContent ([] : List (String × String)) (some t) = text_to_value t := by
      simp only [nodeContent]
      rw [if_neg htne, if_pos htr,
        if_pos (show (contentAttrs ([] : List (String × String))).isEmpty = true from rfl)]
    rw [hnc, finalize_truthy htr] at h
    injection h with h
    exact h.symm

/-- Witness for C3 (amended) at `<a href="xyz">123</a>` (attributes
present, text coerced to the integer `123` under `#text`) and at
`<a>data</a>` (no attributes, no children, bare scalar result). -/
theorem truthy_text_in_result_witness :
    (∃ fs, (Value.obj [("@href", .str "xyz"), ("#text", .int 123)]) = Value.obj fs ∧
      dictGet fs "#text" = some (text_to_value "123")) ∧
    (Value.str "data") = text_to_value "data" := by
  constructor
  · exact (truthy_text_in_result (.mk "a" [("href", "xyz")] (some "123") [] none)
      "123" (.obj [("@href", .str "xyz"), ("#text", .int 123)]) rfl rfl rfl rfl).1
      (by simp [Node.attrib])
  · exact (truthy_text_in_result (.mk "a" [] (some "data") [] none)
      "data" (.str "data") rfl rfl rfl rfl).2 rfl rfl

/-! ### Claim C6 (amended) -/

/-- C6 (amended): whenever a node with children converts successfully
(which fails exactly when bare truthy scalar text accompanies the
children), the result is an object in which every tag-key occurring twice
or more among the direct children maps to the list of the recursively
converted same-tag children in document order, and every tag-key occurring
exactly once maps to its single converted child; the classification uses
the two-pass look-ahead, so an early duplicate is a list from the start. -/
theorem children_collision_lists (n : Node) (v : Value)
    (hwf : childTagsOK n = true) (hcs : n.children ≠ []) (h : parse_xml n = some v) :
    ∃ fs, v = .obj fs ∧
      ∀ c ∈ n.children,
        (countTag n.children (tagOf c) = 1 → dictGet fs (tagOf c) = parse_xml c) ∧
        (2 ≤ countTag n.children (tagOf c) →
          ∃ ws, dictGet fs (tagOf c) = some (.list ws) ∧
            (n.children.filter (fun c2 => tagOf c2 == tagOf c)).map parse_xml
              = ws.map some) := by
  obtain ⟨fs, hv, _, _, _, hcl⟩ := parse_children_spec n v hwf hcs h
  exact ⟨fs, hv, hcl⟩

/-- Witness for C6 (amended) at `<a><b>1</b><b>2</b><b>3</b></a>`: the
thrice-occurring tag `b` maps to the list of the three converted children
in document order. -/
theorem children_collision_lists_witness :
    ∃ fs, (Value.obj [("b", Value.list [.int 1, .int 2, .int 3])]) = Value.obj fs ∧
      ∃ ws, dictGet fs "b" = some (.list ws) ∧
        ([Node.mk "b" [] (some "1") [] none, Node.mk "b" [] (some "2") [] none,
          Node.mk "b" [] (some "3") [] none].filter
            (fun c2 => tagOf c2 == "b")).map parse_xml = ws.map some := by
  obtain ⟨fs, hv, hcl⟩ := children_collision_lists
    (.mk "a" [] none [.mk "b" [] (some "1") [] none, .mk "b" [] (some "2") [] none,
      .mk "b" [] (some "3") [] none] none)
    (.obj [("b", .list [.int 1, .int 2, .int 3])]) rfl (by simp [Node.children]) rfl
  have h2 := (hcl (Node.mk "b" [] (some "1") [] none) (by simp [Node.children])).2 (by decide)
  obtain ⟨ws, hw1, hw2⟩ := h2
  exact ⟨fs, hv, ws, hw1, hw2⟩

/-! ### Claim C10 -/

/-- C10: a child whose recursive conversion yields `None` keeps its key in
the parent's result object: the key maps to `None` when the tag occurs
once, and `None` appears in the tag's list when it occurs several times —
null entries are never pruned. -/
theorem null_children_kept (n : Node) (fs : List (String × Value)) (c : Node)
    (hwf : childTagsOK n = true) (hc : c ∈ n.children)
    (h : parse_xml n = some (.obj fs)) (hnull : parse_xml c = some .null) :
    (dictGet fs (tagOf c)).isSome = true ∧
    (countTag n.children (tagOf c) = 1 → dictGet fs (tagOf c) = some .null) ∧
    (2 ≤ countTag n.children (tagOf c) →
      ∃ ws, dictGet fs (tagOf c) = some (.list ws) ∧ .null ∈ ws) := by
  have hcs : n.children ≠ [] := List.ne_nil_of_mem hc
  obtain ⟨fs2, hv, _, _, _, hcl⟩ := parse_children_spec n (.obj fs) hwf hcs h
  injection hv with hv
  subst hv
  have hpos : 1 ≤ countTag n.children (tagOf c) := countTag_pos_of_mem hc rfl
  by_cases h2 : 2 ≤ countTag n.children (tagOf c)
  · obtain ⟨ws, hw1, hw2⟩ := (hcl c hc).2 h2
    refine ⟨by rw [hw1]; rfl, fun h1 => by omega, fun _ => ⟨ws, hw1, ?_⟩⟩
    have hmf : c ∈ n.children.filter (fun c2 => tagOf c2 == tagOf c) :=
      List.mem_filter.2 ⟨hc, by simp⟩
    have hmm := List.mem_map_of_mem parse_xml hmf
    rw [hnull, hw2] at hmm
    obtain ⟨w, hwm, hwe⟩ := List.mem_map.1 hmm
    have hwn : w = Value.null := by injection hwe
    exact hwn ▸ hwm
  · have h1 : countTag n.children (tagOf c) = 1 := by omega
    have hg := (hcl c hc).1 h1
    rw [hnull] at hg
    exact ⟨by rw [hg]; rfl, fun _ => hg, fun hh => by omega⟩

/-- Witness for C10 at `<a><b/></a>`: the childless, textless,
attributeless child `b` converts to `None` and its key survives in the
parent object mapped to `None`. -/
theorem null_children_kept_witness :
    (dictGet [("b", Value.null)] "b").isSome = true ∧
    dictGet [("b", Value.null)] "b" = some Value.null := by
  have H := null_children_kept (.mk "a" [] none [.mk "b" [] none [] none] none)
    [("b", Value.null)] (.mk "b" [] none [] none) rfl (by simp [Node.children]) rfl rfl
  have h1 := H.2.1 (by decide)
  exact ⟨by rw [show dictGet [("b", Value.null)] "b" = some Value.null from h1]; rfl, h1⟩

/-! ### Generic structural induction over the node tree -/

theorem node_ind (P : Node → Prop) (step : ∀ n, (∀ c ∈ n.children, P c) → P n) :
    ∀ n, P n := by
  suffices H : ∀ k n, sizeOf n ≤ k → P n from fun n => H (sizeOf n) n le_rfl
  intro k
  induction k with
  | zero =>
    intro n hn
    obtain ⟨t, a, x, cs, tl⟩ := n
    simp only [Node.mk.sizeOf_spec] at hn
    omega
  | succ k ih =>
    intro n hn
    refine step n (fun c hc => ih c ?_)
    have h1 : sizeOf c < sizeOf n.children := List.sizeOf_lt_of_mem hc
    have h2 : sizeOf n.children < sizeOf n := by
      obtain ⟨t, a, x, cs, tl⟩ := n
      simp only [Node.children, Node.mk.sizeOf_spec]
      omega
    omega

/-! ### Tail text segments never influence the output -/

theorem tagOf_eraseTails (c : Node) : tagOf (eraseTails c) = tagOf c := by
  obtain ⟨t, a, x, cs, tl⟩ := c
  rfl

theorem lookAhead_eraseTailsL (cs : List Node) :
    ∀ fs, lookAhead fs (eraseTailsL cs) = lookAhead fs cs := by
  induction cs with
  | nil => intro fs; rfl
  | cons c cs ih =>
    intro fs
    simp only [eraseTailsL, lookAhead, tagOf_eraseTails]
    exact ih _

theorem fillChildren_eraseTailsL (cs : List Node) :
    ∀ fs, (∀ c ∈ cs, parse_xml (eraseTails c) = parse_xml c) →
    fillChildren fs (eraseTailsL cs) = fillChildren fs cs := by
  induction cs with
  | nil => intro fs _; rfl
  | cons c cs ih =>
    intro fs hIH
    have hc := hIH c (List.mem_cons_self c cs)
    have htail : ∀ c2 ∈ cs, parse_xml (eraseTails c2) = parse_xml c2 :=
      fun c2 hc2 => hIH c2 (List.mem_cons_of_mem c hc2)
    simp only [eraseTailsL, fillChildren, tagOf_eraseTails, hc]
    cases hv : parse_xml c with
    | none => rfl
    | some v =>
      cases hslot : dictGet fs (tagOf c) with
      | none => exact ih _ htail
      | some w => cases w <;> exact ih _ htail

/-- The converter reads only each node's leading text segment; the text
segments between and after child elements (the tails) never affect the
output — erasing every tail leaves the conversion of any tree
unchanged. -/
theorem parse_xml_ignores_tails : ∀ n, parse_xml (eraseTails n) = parse_xml n := by
  refine node_ind _ (fun n ih => ?_)
  obtain ⟨t, a, x, cs, tl⟩ := n
  cases cs with
  | nil => rfl
  | cons c0 cs0 =>
    have hchild : ∀ c ∈ (c0 :: cs0), parse_xml (eraseTails c) = parse_xml c := by
      intro c hcm
      exact ih c (by simpa [Node.children] using hcm)
    show parse_xml (.mk t a x (eraseTailsL (c0 :: cs0)) none)
      = parse_xml (.mk t a x (c0 :: cs0) tl)
    rw [show eraseTailsL (c0 :: cs0) = eraseTails c0 :: eraseTailsL cs0 from rfl,
      parse_xml_cons, parse_xml_cons]
    cases hnc : nodeContent a x with
    | obj fs =>
      dsimp only
      have e1 : lookAhead fs (eraseTails c0 :: eraseTailsL cs0) = lookAhead fs (c0 :: cs0) := by
        rw [show eraseTails c0 :: eraseTailsL cs0 = eraseTailsL (c0 :: cs0) from rfl,
          lookAhead_eraseTailsL]
      have e2 : fillChildren (lookAhead fs (c0 :: cs0)) (eraseTails c0 :: eraseTailsL cs0)
          = fillChildren (lookAhead fs (c0 :: cs0)) (c0 :: cs0) := by
        rw [show eraseTails c0 :: eraseTailsL cs0 = eraseTailsL (c0 :: cs0) from rfl,
          fillChildren_eraseTailsL _ _ hchild]
      rw [e1, e2]
    | null => rfl
    | bool b => rfl
    | int i => rfl
    | float f => rfl
    | str s => rfl
    | list vs => rfl

/-! ### Dict membership and key-distinctness lemmas -/

theorem mem_dictSet {d : List (String × Value)} {k : String} {v : Value}
    {p : String × Value} (hp : p ∈ dictSet d k v) : p ∈ d ∨ p = (k, v) := by
  induction d with
  | nil => simpa [dictSet] using hp
  | cons q d ih =>
    obtain ⟨k2, v2⟩ := q
    by_cases h2 : k2 = k
    · subst h2
      rw [dictSet, if_pos rfl] at hp
      rcases List.mem_cons.1 hp with h | h
      · exact Or.inr h
      · exact Or.inl (List.mem_cons_of_mem _ h)
    · rw [dictSet, if_neg h2] at hp
      rcases List.mem_cons.1 hp with h | h
      · exact Or.inl (h ▸ List.mem_cons_self _ _)
      · rcases ih h with h3 | h3
        · exact Or.inl (List.mem_cons_of_mem _ h3)
        · exact Or.inr h3

theorem mem_keys_dictSet {d : List (String × Value)} {k s : String} {v : Value}
    (hs : s ∈ (dictSet d k v).map Prod.fst) : s ∈ d.map Prod.fst ∨ s = k := by
  obtain ⟨p, hp, he⟩ := List.mem_map.1 hs
  rcases mem_dictSet hp with h | h
  · exact Or.inl (he ▸ List.mem_map_of_mem Prod.fst h)
  · subst h
    exact Or.inr he.symm

theorem dictSet_nodup {d : List (String × Value)} (k : String) (v : Value)
    (h : List.Nodup (d.map Prod.fst)) : List.Nodup ((dictSet d k v).map Prod.fst) := by
  induction d with
  | nil => simp [dictSet]
  | cons q d ih =>
    obtain ⟨k2, v2⟩ := q
    simp only [List.map_cons, List.nodup_cons] at h
    by_cases h2 : k2 = k
    · subst h2
      rw [dictSet, if_pos rfl]
      simpa [List.nodup_cons] using h
    · rw [dictSet, if_neg h2]
      simp only [List.map_cons, List.nodup_cons]
      refine ⟨?_, ih h.2⟩
      intro hmem
      rcases mem_keys_dictSet hmem with h3 | h3
      · exact h.1 h3
      · exact h2 h3

theorem dictGet_mem {fs : List (String × Value)} {k : String} {w : Value}
    (h : dictGet fs k = some w) : (k, w) ∈ fs := by
  induction fs with
  | nil => exact Option.noConfusion h
  | cons q fs ih =>
    obtain ⟨k2, v2⟩ := q
    by_cases h2 : k2 = k
    · subst h2
      rw [dictGet, if_pos rfl] at h
      injection h with h
      exact h ▸ List.mem_cons_self _ _
    · rw [dictGet, if_neg h2] at h
      exact List.mem_cons_of_mem _ (ih h)

theorem mem_dictGet {fs : List (String × Value)} {k : String} {w : Value}
    (hnd : List.Nodup (fs.map Prod.fst)) (h : (k, w) ∈ fs) : dictGet fs k = some w := by
  induction fs with
  | nil => exact absurd h (List.not_mem_nil _)
  | cons q fs ih =>
    obtain ⟨k2, v2⟩ := q
    simp only [List.map_cons, List.nodup_cons] at hnd
    rcases List.mem_cons.1 h with h3 | h3
    · injection h3 with h4 h5
      subst h4
      subst h5
      rw [dictGet, if_pos rfl]
    · have hk2 : k2 ≠ k := by
        intro he
        subst he
        exact hnd.1 (List.mem_map_of_mem Prod.fst h3)
      rw [dictGet, if_neg hk2]
      exact ih hnd.2 h3

/-! ### Entry facts for the content dict -/

theorem foldl_attrs_entries (Q : String × Value → Prop) (attrs : List (String × String)) :
    ∀ d : List (String × Value), List.Nodup (d.map Prod.fst) → (∀ p ∈ d, Q p) →
    (∀ kv ∈ attrs, Q ("@" ++ xml_tag_to_json_tag kv.1, text_to_value kv.2)) →
    List.Nodup ((attrs.foldl
      (fun d kv => dictSet d ("@" ++ xml_tag_to_json_tag kv.1) (text_to_value kv.2)) d).map
        Prod.fst) ∧
    ∀ p ∈ attrs.foldl
      (fun d kv => dictSet d ("@" ++ xml_tag_to_json_tag kv.1) (text_to_value kv.2)) d, Q p := by
  induction attrs with
  | nil => intro d h1 h2 _; exact ⟨h1, h2⟩
  | cons kv attrs ih =>
    intro d h1 h2 h3
    simp only [List.foldl_cons]
    refine ih _ (dictSet_nodup _ _ h1) ?_ (fun kv2 hkv2 => h3 kv2 (List.mem_cons_of_mem _ hkv2))
    intro p hp
    rcases mem_dictSet hp with h4 | h4
    · exact h2 p h4
    · exact h4 ▸ h3 kv (List.mem_cons_self _ _)

theorem attrsDict_entries (a : List (String × String)) :
    List.Nodup ((attrsDict a).map Prod.fst) ∧
    ∀ p ∈ attrsDict a,
      (∃ kv ∈ a, p.1 = "@" ++ xml_tag_to_json_tag kv.1) ∧ ∃ s, p.2 = text_to_value s := by
  refine foldl_attrs_entries _ a [] (by simp) (by simp) ?_
  intro kv hkv
  exact ⟨⟨kv, hkv, rfl⟩, ⟨kv.2, rfl⟩⟩

theorem contentAttrs_entries (a : List (String × String)) :
    List.Nodup ((contentAttrs a).map Prod.fst) ∧
    ∀ p ∈ contentAttrs a,
      (∃ kv ∈ a, p.1 = "@" ++ xml_tag_to_json_tag kv.1) ∧ ∃ s, p.2 = text_to_value s := by
  rw [contentAttrs]
  split
  · simp
  · exact attrsDict_entries a

/-- Whenever the node content is a dict, its keys are distinct and each
entry is either the `#text` entry or an `@`-prefixed attribute entry, with
a coerced-text value. -/
theorem nodeContent_entries (a : List (String × String)) (x : Option String)
    (fs0 : List (String × Value)) (h : nodeContent a x = .obj fs0) :
    List.Nodup (fs0.map Prod.fst) ∧
    ∀ p ∈ fs0,
      (p.1 = "#text" ∨ ∃ kv ∈ a, p.1 = "@" ++ xml_tag_to_json_tag kv.1) ∧
      ∃ s, p.2 = text_to_value s := by
  obtain ⟨hnd, hent⟩ := contentAttrs_entries a
  have base : ∀ fs1, fs1 = contentAttrs a →
      List.Nodup (fs1.map Prod.fst) ∧
      ∀ p ∈ fs1,
        (p.1 = "#text" ∨ ∃ kv ∈ a, p.1 = "@" ++ xml_tag_to_json_tag kv.1) ∧
        ∃ s, p.2 = text_to_value s := by
    rintro fs1 rfl
    exact ⟨hnd, fun p hp => ⟨Or.inr (hent p hp).1, (hent p hp).2⟩⟩
  cases x with
  | none =>
    injection h with h
    exact base fs0 h.symm
  | some t =>
    simp only [nodeContent] at h
    split at h
    · injection h with h; exact base fs0 h.symm
    · split at h
      · split at h
        · exact absurd h (text_to_value_not_obj _ _)
        · injection h with h
          subst h
          refine ⟨dictSet_nodup _ _ hnd, ?_⟩
          intro p hp
          rcases mem_dictSet hp with h4 | h4
          · exact ⟨Or.inr (hent p h4).1, (hent p h4).2⟩
          · subst h4
            exact ⟨Or.inl rfl, ⟨t, rfl⟩⟩
      · injection h with h; exact base fs0 h.symm

/-- The node content is either a dict or a coerced-text scalar. -/
theorem nodeContent_shape (a : List (String × String)) (x : Option String) :
    (∃ fs0, nodeContent a x = .obj fs0) ∨ ∃ s, nodeContent a x = text_to_value s := by
  cases x with
  | none => exact Or.inl ⟨_, rfl⟩
  | some t =>
    simp only [nodeContent]
    split
    · exact Or.inl ⟨_, rfl⟩
    · split
      · split
        · exact Or.inr ⟨t, rfl⟩
        · exact Or.inl ⟨_, rfl⟩
      · exact Or.inl ⟨_, rfl⟩

theorem lookAhead_nodup (cs : List Node) :
    ∀ fs : List (String × Value), List.Nodup (fs.map Prod.fst) →
    List.Nodup ((lookAhead fs cs).map Prod.fst) := by
  induction cs with
  | nil => intro fs h; exact h
  | cons c cs ih =>
    intro fs h
    rw [lookAhead]
    exact ih _ (dictSet_nodup _ _ h)

theorem fillChildren_nodup (cs : List Node) :
    ∀ fs fs' : List (String × Value), List.Nodup (fs.map Prod.fst) →
    fillChildren fs cs = some fs' → List.Nodup (fs'.map Prod.fst) := by
  induction cs with
  | nil =>
    intro fs fs' h hfc
    simp only [fillChildren, Option.some.injEq] at hfc
    exact hfc ▸ h
  | cons c cs ih =>
    intro fs fs' h hfc
    cases hpc : parse_xml c with
    | none =>
      simp only [fillChildren, hpc] at hfc
      exact Option.noConfusion hfc
    | some v =>
      simp only [fillChildren, hpc] at hfc
      cases hslot : dictGet fs (tagOf c) with
      | none =>
        simp only [hslot] at hfc
        exact ih _ _ (dictSet_nodup _ _ h) hfc
      | some w =>
        cases w <;> simp only [hslot] at hfc <;> exact ih _ _ (dictSet_nodup _ _ h) hfc

theorem finalize_text (s : String) :
    finalize (text_to_value s) = text_to_value s ∨ finalize (text_to_value s) = .null := by
  cases hv : text_to_value s with
  | obj fs => exact absurd hv (text_to_value_not_obj s fs)
  | list vs => exact absurd hv (text_to_value_not_list s vs)
  | str s2 =>
    by_cases he : s2.data.isEmpty = true
    · right
      rw [finalize, if_pos he]
    · left
      rw [finalize, if_neg he]
  | null => left; rfl
  | bool b => left; rfl
  | int i => left; rfl
  | float f => left; rfl

/-- Classification of every successful conversion result: `None`, a
coerced-text scalar, or a non-empty object in which every key is `#text`,
an `@`-attribute key, or a direct child tag-key, and every value is a
coerced-text scalar, a converted child, or a non-empty list of converted
children. -/
theorem parse_xml_shape (n : Node) (v : Value) (h : parse_xml n = some v) :
    v = .null ∨ (∃ s, v = text_to_value s) ∨
    (∃ fs, v = .obj fs ∧ fs ≠ [] ∧
      ∀ p ∈ fs,
        (p.1 = "#text" ∨ (∃ kv ∈ n.attrib, p.1 = "@" ++ xml_tag_to_json_tag kv.1) ∨
          ∃ c ∈ n.children, p.1 = tagOf c) ∧
        ((∃ s, p.2 = text_to_value s) ∨ (∃ c ∈ n.children, parse_xml c = some p.2) ∨
          (∃ ws, p.2 = .list ws ∧ ws ≠ [] ∧
            ∀ w ∈ ws, ∃ c ∈ n.children, parse_xml c = some w))) := by
  obtain ⟨tg, a, x, cs, tl⟩ := n
  simp only [Node.attrib, Node.children]
  cases cs with
  | nil =>
    rw [parse_xml_nil] at h
    injection h with h
    rcases nodeContent_shape a x with ⟨fs0, hnc⟩ | ⟨s, hnc⟩
    · rw [hnc] at h
      cases fs0 with
      | nil => left; rw [← h]; rfl
      | cons p0 fs0t =>
        right; right
        refine ⟨p0 :: fs0t, by rw [← h]; rfl, by simp, ?_⟩
        obtain ⟨hnd, hent⟩ := nodeContent_entries a x _ hnc
        intro p hp
        obtain ⟨hk, hv2⟩ := hent p hp
        exact ⟨hk.imp id Or.inl, Or.inl hv2⟩
    · rw [hnc] at h
      rcases finalize_text s with hf | hf
      · right; left
        exact ⟨s, by rw [← h, hf]⟩
      · left
        rw [← h, hf]
  | cons c0 cs0 =>
    rw [parse_xml_cons] at h
    cases hnc : nodeContent a x with
    | obj fs0 =>
      simp only [hnc] at h
      cases hfc : fillChildren (lookAhead fs0 (c0 :: cs0)) (c0 :: cs0) with
      | none => simp only [hfc] at h; exact Option.noConfusion h
      | some fs2 =>
        simp only [hfc] at h
        injection h with h
        obtain ⟨hnd0, hent0⟩ := nodeContent_entries a x fs0 hnc
        have hnd2 : List.Nodup (fs2.map Prod.fst) :=
          fillChildren_nodup _ _ _ (lookAhead_nodup _ _ hnd0) hfc
        have hls : ∀ t2, 2 ≤ countTag (c0 :: cs0) t2 →
            ∃ ws, dictGet (lookAhead fs0 (c0 :: cs0)) t2 = some (.list ws) := by
          intro t2 h2
          rw [lookAhead_get, if_neg (by omega), if_pos (Or.inr h2)]
          exact ⟨[], rfl⟩
        obtain ⟨hall, hcl⟩ := fillChildren_spec _ _ _ hls hfc
        cases fs2 with
        | nil => left; rw [← h]; rfl
        | cons p2 fs2t =>
          right; right
          refine ⟨p2 :: fs2t, by rw [← h]; rfl, by simp, ?_⟩
          intro p hp
          have hget : dictGet (p2 :: fs2t) p.1 = some p.2 :=
            mem_dictGet hnd2 (by simpa using hp)
          by_cases h0 : countTag (c0 :: cs0) p.1 = 0
          · have hut := (hcl p.1).1 h0
            rw [lookAhead_get, if_pos h0] at hut
            have hmem0 : (p.1, p.2) ∈ fs0 := dictGet_mem (by rw [← hut, hget])
            obtain ⟨hk, hv2⟩ := hent0 _ hmem0
            exact ⟨hk.imp id Or.inl, Or.inl hv2⟩
          · have hpos : 1 ≤ countTag (c0 :: cs0) p.1 := by omega
            obtain ⟨cx, hcxm, hcxe⟩ := countTag_pos_exists hpos
            refine ⟨Or.inr (Or.inr ⟨cx, hcxm, hcxe.symm⟩), ?_⟩
            by_cases hbig : (dictGet fs0 p.1).isSome = true ∨ 2 ≤ countTag (c0 :: cs0) p.1
            · have hslot : dictGet (lookAhead fs0 (c0 :: cs0)) p.1 = some (.list []) := by
                rw [lookAhead_get, if_neg h0, if_pos hbig]
              obtain ⟨vs, hv1, hv2⟩ := (hcl p.1).2.1 [] hslot
              rw [hget] at hv1
              injection hv1 with hv1
              right; right
              refine ⟨vs, by simpa using hv1, ?_, ?_⟩
              · intro he
                have hlen := congrArg List.length hv2
                rw [he] at hlen
                simp only [List.length_map, List.map_nil, List.length_nil] at hlen
                rw [countTag] at hpos
                omega
              · intro w hw
                have hmm : some w ∈ vs.map some := List.mem_map_of_mem some hw
                rw [← hv2] at hmm
                obtain ⟨c, hcm, hce⟩ := List.mem_map.1 hmm
                exact ⟨c, (List.mem_filter.1 hcm).1, hce⟩
            · have hslot : dictGet (lookAhead fs0 (c0 :: cs0)) p.1 = some (.obj []) := by
                rw [lookAhead_get, if_neg h0, if_neg hbig]
              have hone := (hcl p.1).2.2 hpos
                (by intro ws; rw [hslot]; simp) cx hcxm hcxe
              rw [hget] at hone
              exact Or.inr (Or.inl ⟨cx, hcxm, hone.symm⟩)
    | null => simp only [hnc] at h; exact Option.noConfusion h
    | bool b => simp only [hnc] at h; exact Option.noConfusion h
    | int i => simp only [hnc] at h; exact Option.noConfusion h
    | float f => simp only [hnc] at h; exact Option.noConfusion h
    | str s2 => simp only [hnc] at h; exact Option.noConfusion h
    | list vs => simp only [hnc] at h; exact Option.noConfusion h

/-! ### Claim C8: no empty containers in the output -/

theorem text_to_value_noEmpty (t : String) : noEmptyV (text_to_value t) = true := by
  cases hv : text_to_value t with
  | obj fs => exact absurd hv (text_to_value_not_obj t fs)
  | list vs => exact absurd hv (text_to_value_not_list t vs)
  | str s =>
    obtain ⟨hse, hal⟩ := (text_to_value_scalar t).2.2 s hv
    simp only [noEmptyV, Bool.not_eq_true', hse]
    have h1 : t.data ≠ [] := by
      intro he
      rw [hasAlnum19] at hal
      have h2 : (casefold t).data = [] := by
        show t.data.map Char.toLower = []
        rw [he]
        rfl
      rw [h2] at hal
      simp at hal
    cases hd : t.data with
    | nil => exact absurd hd h1
    | cons c cst => rfl
  | null => rfl
  | bool b => rfl
  | int i => rfl
  | float f => rfl

theorem noEmptyF_of {fs : List (String × Value)} (h : ∀ p ∈ fs, noEmptyV p.2 = true) :
    noEmptyF fs = true := by
  induction fs with
  | nil => rfl
  | cons p fs ih =>
    obtain ⟨k, v⟩ := p
    rw [noEmptyF, Bool.and_eq_true]
    exact ⟨h (k, v) (List.mem_cons_self _ _), ih (fun q hq => h q (List.mem_cons_of_mem _ hq))⟩

theorem noEmptyL_of {ws : List Value} (h : ∀ w ∈ ws, noEmptyV w = true) :
    noEmptyL ws = true := by
  induction ws with
  | nil => rfl
  | cons w ws ih =>
    rw [noEmptyL, Bool.and_eq_true]
    exact ⟨h w (List.mem_cons_self _ _), ih (fun q hq => h q (List.mem_cons_of_mem _ hq))⟩

/-- C8: no value anywhere in a conversion result is an empty object, an
empty list or an empty string (any empty assembly collapses to `None`),
and a node with no attributes, no non-null coerced text and no children
converts to exactly `None`. -/
theorem no_empty_containers :
    (∀ n v, parse_xml n = some v → noEmptyV v = true) ∧
    (∀ n, n.attrib = [] → (∀ t, n.text = some t → text_to_value t = .null) →
      n.children = [] → parse_xml n = some .null) := by
  constructor
  · refine node_ind (fun n => ∀ v, parse_xml n = some v → noEmptyV v = true)
      (fun n ih v h => ?_)
    rcases parse_xml_shape n v h with hv | ⟨s, hv⟩ | ⟨fs, hv, hne, hent⟩
    · subst hv; rfl
    · subst hv; exact text_to_value_noEmpty s
    · subst hv
      have hfsval : ∀ p ∈ fs, noEmptyV p.2 = true := by
        intro p hp
        rcases (hent p hp).2 with ⟨s, hp2⟩ | ⟨c, hcm, hc2⟩ | ⟨ws, hp2, hwne, hws⟩
        · rw [hp2]; exact text_to_value_noEmpty s
        · exact ih c hcm p.2 hc2
        · rw [hp2]
          simp only [noEmptyV, Bool.and_eq_true, Bool.not_eq_true']
          constructor
          · cases hd : ws with
            | nil => exact absurd hd hwne
            | cons w wst => rfl
          · refine noEmptyL_of (fun w hw => ?_)
            obtain ⟨c, hcm, hc2⟩ := hws w hw
            exact ih c hcm w hc2
      simp only [noEmptyV, Bool.and_eq_true, Bool.not_eq_true']
      constructor
      · cases hd : fs with
        | nil => exact absurd hd hne
        | cons p fst => rfl
      · exact noEmptyF_of hfsval
  · intro n ha ht hc
    obtain ⟨tg, a, x, cs, tl⟩ := n
    simp only [Node.attrib] at ha
    simp only [Node.text] at ht
    simp only [Node.children] at hc
    subst ha
    subst hc
    rw [parse_xml_nil]
    cases x with
    | none => rfl
    | some t =>
      have htv := ht t rfl
      simp only [nodeContent]
      by_cases he : t.data.isEmpty = true
      · rw [if_pos he]; rfl
      · rw [if_neg he, htv, if_neg (by simp [truthy])]
        rfl

/-- Witness for C8: the result `None` of converting `<a></a>` holds no
empty container, and the empty node converts to exactly `None`. -/
theorem no_empty_containers_witness :
    noEmptyV Value.null = true ∧ parse_xml (.mk "a" [] none [] none) = some .null :=
  ⟨no_empty_containers.1 (.mk "a" [] none [] none) .null rfl,
   no_empty_containers.2 (.mk "a" [] none [] none) rfl
     (fun _ ht => Option.noConfusion ht) rfl⟩

/-! ### Claim C9: every object key in the output is a qualified child
tag, an `@`-prefixed attribute key, or the literal `#text` -/

theorem text_to_value_allKeys (t : String) : allKeysV (text_to_value t) = [] := by
  cases hv : text_to_value t with
  | obj fs => exact absurd hv (text_to_value_not_obj t fs)
  | list vs => exact absurd hv (text_to_value_not_list t vs)
  | str s => rfl
  | null => rfl
  | bool b => rfl
  | int i => rfl
  | float f => rfl

theorem allKeysF_mem {fs : List (String × Value)} {k : String} (h : k ∈ allKeysF fs) :
    ∃ p ∈ fs, k = p.1 ∨ k ∈ allKeysV p.2 := by
  induction fs with
  | nil => exact absurd h (List.not_mem_nil k)
  | cons p fs ih =>
    obtain ⟨k2, v2⟩ := p
    rw [allKeysF] at h
    rcases List.mem_cons.1 h with h2 | h2
    · exact ⟨(k2, v2), List.mem_cons_self _ _, Or.inl h2⟩
    · rcases List.mem_append.1 h2 with h3 | h3
      · exact ⟨(k2, v2), List.mem_cons_self _ _, Or.inr h3⟩
      · obtain ⟨p, hp, hpe⟩ := ih h3
        exact ⟨p, List.mem_cons_of_mem _ hp, hpe⟩

theorem allKeysL_mem {ws : List Value} {k : String} (h : k ∈ allKeysL ws) :
    ∃ w ∈ ws, k ∈ allKeysV w := by
  induction ws with
  | nil => exact absurd h (List.not_mem_nil k)
  | cons w ws ih =>
    rw [allKeysL] at h
    rcases List.mem_append.1 h with h2 | h2
    · exact ⟨w, List.mem_cons_self _ _, h2⟩
    · obtain ⟨w2, hw2, hke⟩ := ih h2
      exact ⟨w2, List.mem_cons_of_mem _ hw2, hke⟩

theorem text_mem_allowedKeys (n : Node) : "#text" ∈ allowedKeys n := by
  obtain ⟨t, a, x, cs, tl⟩ := n
  rw [allowedKeys]
  exact List.mem_cons_self _ _

theorem attr_mem_allowedKeys {n : Node} {kv : String × String} (h : kv ∈ n.attrib) :
    "@" ++ xml_tag_to_json_tag kv.1 ∈ allowedKeys n := by
  obtain ⟨t, a, x, cs, tl⟩ := n
  simp only [Node.attrib] at h
  rw [allowedKeys]
  exact List.mem_cons_of_mem _ (List.mem_append_left _
    (List.mem_map_of_mem (fun kv => "@" ++ xml_tag_to_json_tag kv.1) h))

theorem tag_mem_allowedKeys {n : Node} {c : Node} (h : c ∈ n.children) :
    tagOf c ∈ allowedKeys n := by
  obtain ⟨t, a, x, cs, tl⟩ := n
  simp only [Node.children] at h
  rw [allowedKeys]
  exact List.mem_cons_of_mem _ (List.mem_append_right _
    (List.mem_append_left _ (List.mem_map_of_mem tagOf h)))

theorem mem_allowedKeysL {cs : List Node} {c : Node} {k : String}
    (hc : c ∈ cs) (hk : k ∈ allowedKeys c) : k ∈ allowedKeysL cs := by
  induction cs with
  | nil => exact absurd hc (List.not_mem_nil c)
  | cons c2 cs ih =>
    rw [allowedKeysL]
    rcases List.mem_cons.1 hc with h2 | h2
    · exact List.mem_append_left _ (h2 ▸ hk)
    · exact List.mem_append_right _ (ih h2)

theorem allowedKeys_mono {n : Node} {c : Node} {k : String}
    (hc : c ∈ n.children) (hk : k ∈ allowedKeys c) : k ∈ allowedKeys n := by
  obtain ⟨t, a, x, cs, tl⟩ := n
  simp only [Node.children] at hc
  rw [allowedKeys]
  exact List.mem_cons_of_mem _ (List.mem_append_right _
    (List.mem_append_right _ (mem_allowedKeysL hc hk)))

/-- C9: every key of every object anywhere in a conversion result is the
literal `#text`, an `@`-prefixed qualified attribute name of the tree, or
the qualified tag of a (strict) descendant element. -/
theorem output_keys_allowed : ∀ n v, parse_xml n = some v →
    ∀ k ∈ allKeysV v, k ∈ allowedKeys n := by
  refine node_ind
    (fun n => ∀ v, parse_xml n = some v → ∀ k ∈ allKeysV v, k ∈ allowedKeys n)
    (fun n ih v h k hk => ?_)
  rcases parse_xml_shape n v h with hv | ⟨s, hv⟩ | ⟨fs, hv, hne, hent⟩
  · subst hv; exact absurd hk (List.not_mem_nil k)
  · subst hv
    rw [text_to_value_allKeys] at hk
    exact absurd hk (List.not_mem_nil k)
  · subst hv
    rw [show allKeysV (.obj fs) = allKeysF fs from rfl] at hk
    obtain ⟨p, hp, hpe⟩ := allKeysF_mem hk
    rcases hpe with hpe | hpe
    · rcases (hent p hp).1 with h1 | ⟨kv, hkv, h1⟩ | ⟨c, hcm, h1⟩
      · rw [hpe, h1]; exact text_mem_allowedKeys n
      · rw [hpe, h1]; exact attr_mem_allowedKeys hkv
      · rw [hpe, h1]; exact tag_mem_allowedKeys hcm
    · rcases (hent p hp).2 with ⟨s, h2⟩ | ⟨c, hcm, h2⟩ | ⟨ws, h2, hwne, hws⟩
      · rw [h2, text_to_value_allKeys] at hpe
        exact absurd hpe (List.not_mem_nil k)
      · exact allowedKeys_mono hcm (ih c hcm p.2 h2 k hpe)
      · rw [h2] at hpe
        rw [show allKeysV (.list ws) = allKeysL ws from rfl] at hpe
        obtain ⟨w, hwm, hw2⟩ := allKeysL_mem hpe
        obtain ⟨c, hcm, hc2⟩ := hws w hwm
        exact allowedKeys_mono hcm (ih c hcm w hc2 k hw2)

/-- Witness for C9 at `<a x="y"><b>1</b></a>`: both output keys `@x` and
`b` lie in the allowed key list of the tree. -/
theorem output_keys_allowed_witness :
    "@x" ∈ allowedKeys (.mk "a" [("x", "y")] none [.mk "b" [] (some "1") [] none] none) ∧
    "b" ∈ allowedKeys (.mk "a" [("x", "y")] none [.mk "b" [] (some "1") [] none] none) := by
  have H := output_keys_allowed
    (.mk "a" [("x", "y")] none [.mk "b" [] (some "1") [] none] none)
    (.obj [("@x", .str "y"), ("b", .int 1)]) rfl
  exact ⟨H "@x" (by decide), H "b" (by decide)⟩

end SeatmapParser
